import Mathlib

/-!
Verification of the multicall contract-call helper: the signature parser
`parseNewMethod`, the method registry `addMethod`, and the batch
orchestration `addCall` / `contractCall`, embedded from `call/contract.go`.
Strings are modelled as `List Char`; Go string primitives (`strings.Split`,
`strings.Contains`, `strings.Replace` with count 1, `strings.TrimSpace`,
`strings.ToLower`) are given structurally recursive models below.
Panics are modelled as `Option.none` / explicit outcome flags.
-/

namespace Multicall

/-- `isPre p s` models Go's internal prefix test: `p` is a prefix of `s`. -/
def isPre : List Char → List Char → Bool
  | [], _ => true
  | _ :: _, [] => false
  | a :: p, b :: s => a == b && isPre p s

/-- `breakSeq pat s` finds the first occurrence of `pat` in `s`, returning
the part before it and the part after it (`none` when absent). -/
def breakSeq (pat : List Char) : List Char → Option (List Char × List Char)
  | [] => if isPre pat [] then some ([], []) else none
  | c :: rest =>
    if isPre pat (c :: rest) then some ([], (c :: rest).drop pat.length)
    else
      match breakSeq pat rest with
      | none => none
      | some (a, b) => some (c :: a, b)

/-- Model of Go `strings.Contains(s, pat)`. -/
def containsSeq (pat s : List Char) : Bool :=
  (breakSeq pat s).isSome

/-- Model of Go `strings.Replace(s, pat, rep, 1)`: replace the first
occurrence of `pat` (if any) by `rep`. -/
def replaceFirst (pat rep s : List Char) : List Char :=
  match breakSeq pat s with
  | none => s
  | some (a, b) => a ++ rep ++ b

/-- Model of Go `strings.Split(s, sep)` for a one-character separator. -/
def splitChar (d : Char) : List Char → List (List Char)
  | [] => [[]]
  | c :: rest =>
    if c = d then [] :: splitChar d rest
    else
      match splitChar d rest with
      | [] => [[c]]
      | a :: as => (c :: a) :: as

/-- Model of Go `strings.Split(s, sep)` for a two-character separator
`[d, e]`, scanning left to right over non-overlapping occurrences. -/
def splitPair (d e : Char) : List Char → List (List Char)
  | [] => [[]]
  | [c] => [[c]]
  | c :: c' :: rest =>
    if c = d ∧ c' = e then [] :: splitPair d e rest
    else
      match splitPair d e (c' :: rest) with
      | [] => [[c]]
      | a :: as => (c :: a) :: as

/-- Whitespace characters recognised by Go's `strings.TrimSpace` for the
ASCII range. -/
def isSpaceChar (c : Char) : Bool :=
  c = ' ' || c = '\t' || c = '\n' || c = '\r' || c.toNat = 11 || c.toNat = 12

/-- Model of Go `strings.TrimSpace`. -/
def trimSpace (s : List Char) : List Char :=
  ((s.dropWhile isSpaceChar).reverse.dropWhile isSpaceChar).reverse

/-- Model of Go `strings.ToLower` (ASCII). -/
def toLowerStr (s : List Char) : List Char :=
  s.map Char.toLower

/-- The literal `"function"`, used both as the keyword stripped from the
method-name prefix and as the fixed `Type` field value. -/
def fnWord : List Char := ['f', 'u', 'n', 'c', 't', 'i', 'o', 'n']

/-- The literal `"view"`, the fixed `StateMutability` field value. -/
def viewWord : List Char := ['v', 'i', 'e', 'w']

/-- `Argument` from `contract.go`. -/
structure Argument where
  name : List Char
  type : List Char
  internalType : List Char
deriving DecidableEq, Repr

/-- `Method` from `contract.go`. -/
structure Method where
  name : List Char
  inputs : List Argument
  outputs : List Argument
  type : List Char
  stateMutability : List Char
deriving DecidableEq, Repr

/-- Builds the `Argument` the parser creates for a raw type token:
empty name, type and internalType both the whitespace-trimmed token. -/
def mkArg (t : List Char) : Argument :=
  { name := [], type := trimSpace t, internalType := trimSpace t }

/-- `parseParamsPath` from `contract.go`: split the parameter clause on `,`. -/
def parseParamsPath (paramsPath : List Char) : List (List Char) :=
  splitChar ',' paramsPath

/-- `parseNewMethod` from `contract.go`. Go panics (explicit panic on a
signature with no `(`, and runtime index-out-of-range panics on the
`[1]` accesses) are modelled as `none`. -/
def parseNewMethod (signature : List Char) : Option Method :=
  let methodPaths := splitChar '(' signature
  if methodPaths.length ≤ 1 then
    none
  else
    let methodName := trimSpace (replaceFirst fnWord [] methodPaths.headI)
    if containsSeq [')', '('] signature then
      let multipleReturnPaths := splitPair ')' '(' signature
      let paramsPaths := splitChar '(' multipleReturnPaths.headI
      match multipleReturnPaths.get? 1, paramsPaths.get? 1 with
      | some multipleReturnPath, some pp1 =>
        let params := parseParamsPath pp1
        let inputs := (params.filter (fun p => !p.isEmpty)).map mkArg
        let outputPath := replaceFirst [')'] [] multipleReturnPath
        let outputs := (splitChar ',' outputPath).map mkArg
        some { name := methodName, inputs := inputs, outputs := outputs,
               type := fnWord, stateMutability := viewWord }
      | _, _ => none
    else
      let singleReturnPaths := splitChar ')' signature
      let paramsPaths := splitChar '(' singleReturnPaths.headI
      match singleReturnPaths.get? 1, paramsPaths.get? 1 with
      | some s1, some pp1 =>
        let params := parseParamsPath pp1
        let inputs := (params.filter (fun p => !p.isEmpty)).map mkArg
        let returnType := trimSpace s1
        some { name := methodName, inputs := inputs,
               outputs := [{ name := [], type := returnType,
                             internalType := returnType }],
               type := fnWord, stateMutability := viewWord }
      | _, _ => none

/-- `core.Call` from the repository, as used by `contract.go`: label
(`Name`), target address, method name, and the encoded call data. -/
structure CallEntry where
  method : List Char
  target : List Char
  name : List Char
  callData : List Nat
deriving DecidableEq, Repr

/-- The mutable fields of the `contract` struct that the claims concern:
the compiled interface description (abstract type `α`), the raw-signature
map (Go `map[string]string`, keyed by the lowercased signature), the
ordered method list, and the pending call batch. -/
structure ContractState (α : Type) where
  contractAbi : α
  rawMethods : List (List Char × List Char)
  methods : List Method
  calls : List CallEntry
deriving DecidableEq

/-- Go map lookup on the association-list model. -/
def mapLookup {β : Type} (k : List Char) : List (List Char × β) → Option β
  | [] => none
  | (k', v) :: rest => if k' = k then some v else mapLookup k rest

/-- Go map index-assignment on the association-list model: overwrite the
binding of `k` if present, otherwise add it. -/
def mapInsert {β : Type} (k : List Char) (v : β) :
    List (List Char × β) → List (List Char × β)
  | [] => [(k, v)]
  | (k', v') :: rest =>
    if k' = k then (k, v) :: rest else (k', v') :: mapInsert k v rest

/-- Outcome of `AddMethod`: success, or one of its three panic sites
(duplicate signature, parse failure, ABI recompilation failure). -/
inductive AddOutcome
  | ok
  | dupErr
  | parseErr
  | repackErr
deriving DecidableEq, Repr

/-- `AddMethod` from `contract.go`. `repack` abstracts the external
`repackAbi` pipeline (`json.Marshal` + `abi.JSON`), producing a compiled
interface description of abstract type `α` or failing. A panic leaves the
receiver with whatever mutations were already applied, so the state at
the panic point is returned together with the outcome. -/
def addMethod {α : Type} (repack : List Method → Option α)
    (st : ContractState α) (signature : List Char) :
    ContractState α × AddOutcome :=
  match mapLookup (toLowerStr signature) st.rawMethods with
  | some _ => (st, AddOutcome.dupErr)
  | none =>
    let st1 := { st with
      rawMethods := mapInsert (toLowerStr signature) signature st.rawMethods }
    match parseNewMethod signature with
    | none => (st1, AddOutcome.parseErr)
    | some m =>
      let st2 := { st1 with methods := st1.methods ++ [m] }
      match repack st2.methods with
      | none => (st2, AddOutcome.repackErr)
      | some newAbi => ({ st2 with contractAbi := newAbi }, AddOutcome.ok)

/-- `AddCall` from `contract.go`. `hexToAddress` abstracts the external
`common.HexToAddress`; `packResult` is the value of the external
`contractAbi.Pack(method, args...)` for this call (`none` = encoding
error, which panics before the entry is appended). The returned `Bool`
is `false` exactly when the call panicked. -/
def addCall {α : Type} (hexToAddress : List Char → List Char)
    (packResult : Option (List Nat))
    (callName contractAddress method : List Char)
    (st : ContractState α) : ContractState α × Bool :=
  match packResult with
  | none => (st, false)
  | some callData =>
    ({ st with calls := st.calls ++
        [{ method := method, target := hexToAddress contractAddress,
           name := callName, callData := callData }] }, true)

/-- `Call` from `contract.go`. `execute` abstracts the external
`multiCaller.Execute`: it receives the pending batch and the requested
block number and yields the actual block number, a label → raw-return-bytes
map (Go map lookup of a missing label gives the zero value, so a total
function), and an optional error. `unpack` abstracts the external
`contractAbi.Unpack`: interface description, method name, raw bytes →
decoded values (`none` models Go's `nil` result on a decode error, whose
error return is discarded by `res[call.Name], _ = ...`). The result map
is built by Go map assignment over the batch in insertion order, then the
batch is cleared via `ClearCall` and the execution error is returned
unchanged. -/
def contractCall {α β ε : Type} (unpack : α → List Char → List Nat → Option (List β))
    (execute : List CallEntry → Option Int →
      Option Int × (List Char → List Nat) × Option ε)
    (st : ContractState α) (blockNumber : Option Int) :
    Option Int × List (List Char × Option (List β)) × Option ε × ContractState α :=
  let r := execute st.calls blockNumber
  let results := r.2.1
  let res := st.calls.foldl
    (fun m c => mapInsert c.name (unpack st.contractAbi c.method (results c.name)) m) []
  (r.1, res, r.2.2, { st with calls := [] })

/-- Joins type tokens with `,`, the inverse image of the parser's comma
split; used to state what a well-formed signature clause looks like. -/
def joinComma : List (List Char) → List Char
  | [] => []
  | [t] => t
  | t :: u :: rest => t ++ ',' :: joinComma (u :: rest)

/-- A well-formed multi-clause signature `name(t1,...,tn)(o1,...,om)`. -/
def mkMultiSig (name : List Char) (ts os : List (List Char)) : List Char :=
  name ++ '(' :: (joinComma ts ++ ')' :: '(' :: (joinComma os ++ [')']))

/-- A well-formed single-clause signature `name(t1,...,tn)out`. -/
def mkSingleSig (name : List Char) (ts : List (List Char)) (out : List Char) :
    List Char :=
  name ++ '(' :: (joinComma ts ++ ')' :: out)

/-- Concrete one-entry batch used to exercise the batch-execution model. -/
def c2entry : CallEntry :=
  { method := ("totalSupply").toList, target := [],
    name := ("ts").toList, callData := [1] }

/-- Concrete session state holding the one-entry batch `c2entry`. -/
def c2state : ContractState Unit :=
  { contractAbi := (), rawMethods := [], methods := [], calls := [c2entry] }

/-- Concrete stand-in for the external decode primitive: echoes the raw
bytes as the decoded values. -/
def c2unpack : Unit → List Char → List Nat → Option (List Nat) :=
  fun _ _ d => some d

/-- Concrete stand-in for the external aggregator primitive: returns the
requested block number, the bytes `[7]` for every label, and no error. -/
def c2execute : List CallEntry → Option Int →
    Option Int × (List Char → List Nat) × Option Unit :=
  fun _ bn => (bn, fun _ => [7], none)

/-- Concrete session state with one registered raw signature; the map key
is the lowercased stored signature, as `AddMethod` maintains. -/
def dupState : ContractState Nat :=
  { contractAbi := 0,
    rawMethods := [(("foo()(uint256)").toList, ("Foo()(uint256)").toList)],
    methods := [], calls := [] }

/-- Concrete empty session state over a `Nat` interface description. -/
def emptyState : ContractState Nat :=
  { contractAbi := 0, rawMethods := [], methods := [], calls := [] }

section StringLemmas

theorem isPre_append_self (p b : List Char) : isPre p (p ++ b) = true := by
  induction p with
  | nil => rfl
  | cons a p ih => simp [isPre, ih]

theorem isPre_cons_ne (d c : Char) (ds t : List Char) (h : c ≠ d) :
    isPre (d :: ds) (c :: t) = false := by
  have hdc : (d == c) = false := by
    simp only [beq_eq_false_iff_ne, ne_eq]
    exact fun hh => h hh.symm
  simp [isPre, hdc]

theorem breakSeq_none_of_no_first (d : Char) (ds s : List Char)
    (h : ∀ x ∈ s, x ≠ d) : breakSeq (d :: ds) s = none := by
  induction s with
  | nil => rfl
  | cons c rest ih =>
    have hc : c ≠ d := h c (List.mem_cons_self c rest)
    have ihr := ih (fun x hx => h x (List.mem_cons_of_mem c hx))
    simp [breakSeq, isPre_cons_ne d c ds rest hc, ihr]

theorem breakSeq_first (d : Char) (ds b : List Char) :
    ∀ a : List Char, (∀ x ∈ a, x ≠ d) →
      breakSeq (d :: ds) (a ++ d :: (ds ++ b)) = some (a, b) := by
  intro a ha
  induction a with
  | nil =>
    have hpre : isPre (d :: ds) (d :: (ds ++ b)) = true := by
      have := isPre_append_self (d :: ds) b
      simpa [List.cons_append] using this
    simp only [List.nil_append]
    rw [breakSeq]
    simp only [hpre, if_true]
    simp [List.drop_left]
  | cons c a ih =>
    have hc : c ≠ d := ha c (List.mem_cons_self c a)
    have ihr := ih (fun x hx => ha x (List.mem_cons_of_mem c hx))
    simp only [List.cons_append]
    rw [breakSeq]
    rw [isPre_cons_ne d c ds _ hc]
    simp only [Bool.false_eq_true, if_false]
    rw [ihr]

theorem breakSeq_pair_none (d e : Char) (b : List Char)
    (hb : ∀ x ∈ b, x ≠ d) (hh : ∀ c t, b = c :: t → c ≠ e) :
    ∀ a : List Char, (∀ x ∈ a, x ≠ d) →
      breakSeq [d, e] (a ++ d :: b) = none := by
  intro a ha
  induction a with
  | nil =>
    have hbb : breakSeq [d, e] b = none := by
      cases b with
      | nil => rfl
      | cons c t =>
        exact breakSeq_none_of_no_first d [e] (c :: t) hb
    have hpre : isPre [d, e] (d :: b) = false := by
      cases b with
      | nil => simp [isPre]
      | cons c t =>
        have hce : c ≠ e := hh c t rfl
        have hec : (e == c) = false := by
          simp only [beq_eq_false_iff_ne, ne_eq]
          exact fun hx => hce hx.symm
        simp [isPre, hec]
    simp [breakSeq, hpre, hbb]
  | cons c a ih =>
    have hc : c ≠ d := ha c (List.mem_cons_self c a)
    have ihr := ih (fun x hx => ha x (List.mem_cons_of_mem c hx))
    simp only [List.cons_append]
    rw [breakSeq]
    rw [isPre_cons_ne d c [e] _ hc]
    simp only [Bool.false_eq_true, if_false, ihr]

theorem replaceFirst_of_none (pat rep s : List Char)
    (h : breakSeq pat s = none) : replaceFirst pat rep s = s := by
  simp [replaceFirst, h]

theorem replaceFirst_at (d : Char) (ds rep b : List Char) (a : List Char)
    (ha : ∀ x ∈ a, x ≠ d) :
    replaceFirst (d :: ds) rep (a ++ d :: (ds ++ b)) = a ++ (rep ++ b) := by
  rw [replaceFirst, breakSeq_first d ds b a ha]
  simp

theorem splitChar_ne_nil (d : Char) (s : List Char) : splitChar d s ≠ [] := by
  induction s with
  | nil => simp [splitChar]
  | cons c rest ih =>
    by_cases hc : c = d
    · simp [splitChar, hc]
    · cases hs : splitChar d rest with
      | nil => exact absurd hs ih
      | cons a as => simp [splitChar, hc, hs]

theorem splitChar_no (d : Char) (a : List Char) (ha : ∀ x ∈ a, x ≠ d) :
    splitChar d a = [a] := by
  induction a with
  | nil => rfl
  | cons c rest ih =>
    have hc : c ≠ d := ha c (List.mem_cons_self c rest)
    have ihr := ih (fun x hx => ha x (List.mem_cons_of_mem c hx))
    simp [splitChar, hc, ihr]

theorem splitChar_first (d : Char) (b : List Char) :
    ∀ a : List Char, (∀ x ∈ a, x ≠ d) →
      splitChar d (a ++ d :: b) = a :: splitChar d b := by
  intro a ha
  induction a with
  | nil => simp [splitChar]
  | cons c a ih =>
    have hc : c ≠ d := ha c (List.mem_cons_self c a)
    have ihr := ih (fun x hx => ha x (List.mem_cons_of_mem c hx))
    simp only [List.cons_append]
    rw [splitChar]
    simp only [hc, if_false, ihr]

theorem splitPair_no_d (d e : Char) :
    ∀ s : List Char, (∀ x ∈ s, x ≠ d) → splitPair d e s = [s] := by
  intro s
  induction s with
  | nil => intro _; rfl
  | cons c tail ih =>
    intro h
    have hc : c ≠ d := h c (List.mem_cons_self c tail)
    have ihr := ih (fun x hx => h x (List.mem_cons_of_mem c hx))
    cases tail with
    | nil => rfl
    | cons y rest =>
      rw [splitPair]
      have hcond : ¬(c = d ∧ y = e) := fun hp => hc hp.1
      simp only [hcond, if_false, ihr]

theorem splitPair_last (d e : Char) :
    ∀ a : List Char, (∀ x ∈ a, x ≠ d) →
      splitPair d e (a ++ [d]) = [a ++ [d]] := by
  intro a
  induction a with
  | nil => intro _; rfl
  | cons c a ih =>
    intro h
    have hc : c ≠ d := h c (List.mem_cons_self c a)
    have ihr := ih (fun x hx => h x (List.mem_cons_of_mem c hx))
    cases a with
    | nil =>
      simp only [List.nil_append] at ihr
      rw [List.cons_append, List.nil_append, splitPair]
      have hcond : ¬(c = d ∧ d = e) := fun hp => hc hp.1
      simp only [hcond, if_false, ihr]
    | cons y a' =>
      rw [List.cons_append, List.cons_append, splitPair]
      have hcond : ¬(c = d ∧ y = e) := fun hp => hc hp.1
      rw [← List.cons_append]
      simp only [hcond, if_false, ihr]

theorem splitPair_first (d e : Char) (b : List Char) :
    ∀ a : List Char, (∀ x ∈ a, x ≠ d) →
      splitPair d e (a ++ d :: e :: b) = a :: splitPair d e b := by
  intro a
  induction a with
  | nil => intro _; simp [splitPair]
  | cons c a ih =>
    intro h
    have hc : c ≠ d := h c (List.mem_cons_self c a)
    have ihr := ih (fun x hx => h x (List.mem_cons_of_mem c hx))
    cases a with
    | nil =>
      simp only [List.nil_append] at ihr
      rw [List.cons_append, List.nil_append, splitPair]
      have hcond : ¬(c = d ∧ d = e) := fun hp => hc hp.1
      simp only [hcond, if_false, ihr]
    | cons y a' =>
      rw [List.cons_append, List.cons_append, splitPair]
      have hcond : ¬(c = d ∧ y = e) := fun hp => hc hp.1
      rw [← List.cons_append]
      simp only [hcond, if_false, ihr]

theorem mem_joinComma :
    ∀ (ts : List (List Char)) (x : Char), x ∈ joinComma ts →
      x = ',' ∨ ∃ t ∈ ts, x ∈ t
  | [], x, hx => by simp [joinComma] at hx
  | [t], x, hx => by
    right
    exact ⟨t, List.mem_cons_self t [], by simpa [joinComma] using hx⟩
  | t :: u :: rest, x, hx => by
    rw [joinComma] at hx
    rcases List.mem_append.1 hx with h1 | h2
    · exact Or.inr ⟨t, List.mem_cons_self t (u :: rest), h1⟩
    · rcases List.mem_cons.1 h2 with h3 | h4
      · exact Or.inl h3
      · rcases mem_joinComma (u :: rest) x h4 with h5 | ⟨t', ht', hxt'⟩
        · exact Or.inl h5
        · exact Or.inr ⟨t', List.mem_cons_of_mem t ht', hxt'⟩

theorem splitChar_joinComma :
    ∀ ts : List (List Char), ts ≠ [] →
      (∀ t ∈ ts, ∀ x ∈ t, x ≠ ',') →
      splitChar ',' (joinComma ts) = ts
  | [], h, _ => absurd rfl h
  | [t], _, h => by
    rw [joinComma]
    exact splitChar_no ',' t (h t (List.mem_cons_self t []))
  | t :: u :: rest, _, h => by
    rw [joinComma]
    rw [splitChar_first ',' (joinComma (u :: rest)) t
      (h t (List.mem_cons_self t (u :: rest)))]
    rw [splitChar_joinComma (u :: rest) (by simp)
      (fun t' ht' => h t' (List.mem_cons_of_mem t ht'))]

end StringLemmas

section MapLemmas

variable {γ : Type}

theorem mapLookup_insert_self (k : List Char) (v : γ) :
    ∀ m : List (List Char × γ), mapLookup k (mapInsert k v m) = some v := by
  intro m
  induction m with
  | nil => simp [mapInsert, mapLookup]
  | cons p rest ih =>
    by_cases hk : p.1 = k
    · simp [mapInsert, hk, mapLookup]
    · simp [mapInsert, hk, mapLookup, ih]

theorem mapLookup_insert_ne (ℓ k : List Char) (v : γ) (h : ℓ ≠ k) :
    ∀ m : List (List Char × γ),
      mapLookup ℓ (mapInsert k v m) = mapLookup ℓ m := by
  intro m
  induction m with
  | nil =>
    simp [mapInsert, mapLookup, Ne.symm h]
  | cons p rest ih =>
    obtain ⟨pk, pv⟩ := p
    by_cases hk : pk = k
    · have h1 : ¬(k = ℓ) := fun hh => h hh.symm
      have h2 : ¬(pk = ℓ) := fun hh => h1 (hk.symm.trans hh)
      simp [mapInsert, hk, mapLookup, h1, h2]
    · by_cases hl : pk = ℓ
      · simp [mapInsert, hk, mapLookup, hl, h]
      · simp [mapInsert, hk, mapLookup, hl, ih]

theorem mapLookup_isSome_of_key (k : List Char) :
    ∀ m : List (List Char × γ), (∃ p ∈ m, p.1 = k) →
      (mapLookup k m).isSome = true := by
  intro m
  induction m with
  | nil => rintro ⟨p, hp, _⟩; simp at hp
  | cons q rest ih =>
    rintro ⟨p, hp, hpk⟩
    rcases List.mem_cons.1 hp with h1 | h2
    · subst h1
      simp [mapLookup, hpk]
    · by_cases hq : q.1 = k
      · simp [mapLookup, hq]
      · simpa [mapLookup, hq] using ih ⟨p, h2, hpk⟩

theorem lookup_foldl_not_mem (val : CallEntry → γ) (ℓ : List Char) :
    ∀ (cs : List CallEntry) (m : List (List Char × γ)),
      ℓ ∉ cs.map CallEntry.name →
      mapLookup ℓ (cs.foldl (fun m c => mapInsert c.name (val c) m) m)
        = mapLookup ℓ m := by
  intro cs
  induction cs with
  | nil => intro m _; rfl
  | cons c cs ih =>
    intro m h
    rw [List.map_cons] at h
    have h1 : ℓ ≠ c.name := fun hh => h (by simp [hh])
    have h2 : ℓ ∉ cs.map CallEntry.name := fun hh => h (by simp [hh])
    rw [List.foldl_cons, ih _ h2, mapLookup_insert_ne ℓ c.name _ h1]

theorem lookup_foldl_isSome (val : CallEntry → γ) (ℓ : List Char) :
    ∀ (cs : List CallEntry) (m : List (List Char × γ)),
      (mapLookup ℓ (cs.foldl (fun m c => mapInsert c.name (val c) m) m)).isSome = true ↔
        ℓ ∈ cs.map CallEntry.name ∨ (mapLookup ℓ m).isSome = true := by
  intro cs
  induction cs with
  | nil => intro m; simp
  | cons c cs ih =>
    intro m
    rw [List.foldl_cons, ih]
    by_cases h1 : ℓ = c.name
    · subst h1
      simp [mapLookup_insert_self]
    · rw [mapLookup_insert_ne ℓ c.name _ h1]
      simp [h1, or_assoc]

theorem lookup_foldl_nodup (val : CallEntry → γ) :
    ∀ (cs : List CallEntry) (m : List (List Char × γ)) (c : CallEntry),
      (cs.map CallEntry.name).Nodup → c ∈ cs →
      mapLookup c.name (cs.foldl (fun m c => mapInsert c.name (val c) m) m)
        = some (val c) := by
  intro cs
  induction cs with
  | nil => intro m c _ hc; simp at hc
  | cons hd cs ih =>
    intro m c hnd hc
    rw [List.map_cons, List.nodup_cons] at hnd
    rw [List.foldl_cons]
    rcases List.mem_cons.1 hc with h1 | h2
    · subst h1
      rw [lookup_foldl_not_mem val c.name cs _ hnd.1]
      exact mapLookup_insert_self c.name _ _
    · exact ih _ c hnd.2 h2

end MapLemmas

section ParseLemmas

theorem joinComma_no_char (ts : List (List Char)) (d : Char) (hd : d ≠ ',')
    (h : ∀ t ∈ ts, ∀ x ∈ t, x ≠ d) : ∀ x ∈ joinComma ts, x ≠ d := by
  intro x hx
  rcases mem_joinComma ts x hx with h1 | ⟨t, ht, hxt⟩
  · subst h1; exact fun hh => hd hh.symm
  · exact h t ht x hxt

theorem filter_map_inputs (ts : List (List Char))
    (hts : ∀ t ∈ ts, t ≠ [] ∧ ∀ x ∈ t, x ≠ '(' ∧ x ≠ ')' ∧ x ≠ ',') :
    ((splitChar ',' (joinComma ts)).filter (fun p => !p.isEmpty)).map mkArg
      = ts.map mkArg := by
  cases ts with
  | nil => rfl
  | cons t rest =>
    rw [splitChar_joinComma (t :: rest) (by simp)
      (fun t' ht' x hx => ((hts t' ht').2 x hx).2.2)]
    have hfil : (t :: rest).filter (fun p => !p.isEmpty) = t :: rest := by
      rw [List.filter_eq_self]
      intro a ha
      have hne := (hts a ha).1
      simp [List.isEmpty_iff, hne]
    rw [hfil]

theorem no_fnWord_replace (name : List Char)
    (hnf : containsSeq fnWord name = false) :
    replaceFirst fnWord [] name = name := by
  cases hbs : breakSeq fnWord name with
  | none => exact replaceFirst_of_none _ _ _ hbs
  | some p => rw [containsSeq, hbs] at hnf; simp at hnf

theorem parse_mkMultiSig (name : List Char) (ts os : List (List Char))
    (hn : ∀ x ∈ name, x ≠ '(' ∧ x ≠ ')')
    (hnf : containsSeq fnWord name = false)
    (hnt : trimSpace name = name)
    (hts : ∀ t ∈ ts, t ≠ [] ∧ ∀ x ∈ t, x ≠ '(' ∧ x ≠ ')' ∧ x ≠ ',')
    (hosne : os ≠ [])
    (hos : ∀ t ∈ os, ∀ x ∈ t, x ≠ '(' ∧ x ≠ ')' ∧ x ≠ ',') :
    parseNewMethod (mkMultiSig name ts os)
      = some { name := name, inputs := ts.map mkArg, outputs := os.map mkArg,
               type := fnWord, stateMutability := viewWord } := by
  have hjts_np : ∀ x ∈ joinComma ts, x ≠ '(' :=
    joinComma_no_char ts '(' (by decide) (fun t ht x hx => ((hts t ht).2 x hx).1)
  have hjts_nrp : ∀ x ∈ joinComma ts, x ≠ ')' :=
    joinComma_no_char ts ')' (by decide) (fun t ht x hx => ((hts t ht).2 x hx).2.1)
  have hjos_nrp : ∀ x ∈ joinComma os, x ≠ ')' :=
    joinComma_no_char os ')' (by decide) (fun t ht x hx => (hos t ht x hx).2.1)
  have hname_np : ∀ x ∈ name, x ≠ '(' := fun x hx => (hn x hx).1
  have ha2 : ∀ x ∈ name ++ '(' :: joinComma ts, x ≠ ')' := by
    intro x hx
    rcases List.mem_append.1 hx with h1 | h2
    · exact (hn x h1).2
    · rcases List.mem_cons.1 h2 with h3 | h4
      · subst h3; decide
      · exact hjts_nrp x h4
  have hsig : mkMultiSig name ts os
      = (name ++ '(' :: joinComma ts) ++ ')' :: '(' :: (joinComma os ++ [')']) := by
    simp [mkMultiSig]
  have hsp1 : splitChar '(' (mkMultiSig name ts os)
      = name :: splitChar '('
          (joinComma ts ++ ')' :: '(' :: (joinComma os ++ [')'])) :=
    splitChar_first '(' (joinComma ts ++ ')' :: '(' :: (joinComma os ++ [')']))
      name hname_np
  have hbody_ne :=
    splitChar_ne_nil '(' (joinComma ts ++ ')' :: '(' :: (joinComma os ++ [')']))
  have hlen : ¬((name :: splitChar '('
      (joinComma ts ++ ')' :: '(' :: (joinComma os ++ [')']))).length ≤ 1) := by
    intro hle
    apply hbody_ne
    cases hxx : splitChar '('
        (joinComma ts ++ ')' :: '(' :: (joinComma os ++ [')'])) with
    | nil => rfl
    | cons a as => rw [hxx] at hle; simp at hle
  have hcontains : containsSeq [')', '('] (mkMultiSig name ts os) = true := by
    rw [containsSeq, hsig]
    have hbrk := breakSeq_first ')' ['('] (joinComma os ++ [')'])
      (name ++ '(' :: joinComma ts) ha2
    simp only [List.singleton_append] at hbrk
    rw [hbrk]
    rfl
  have hsp2 : splitPair ')' '(' (mkMultiSig name ts os)
      = (name ++ '(' :: joinComma ts) :: [joinComma os ++ [')']] := by
    rw [hsig]
    rw [splitPair_first ')' '(' (joinComma os ++ [')'])
      (name ++ '(' :: joinComma ts) ha2]
    rw [splitPair_last ')' '(' (joinComma os) hjos_nrp]
  have hsp3 : splitChar '(' (name ++ '(' :: joinComma ts)
      = [name, joinComma ts] := by
    rw [splitChar_first '(' (joinComma ts) name hname_np]
    rw [splitChar_no '(' (joinComma ts) hjts_np]
  have hout : replaceFirst [')'] [] (joinComma os ++ [')'])
      = joinComma os := by
    have h := replaceFirst_at ')' [] [] [] (joinComma os) hjos_nrp
    simpa using h
  have hosplit : splitChar ',' (joinComma os) = os :=
    splitChar_joinComma os hosne (fun t ht x hx => (hos t ht x hx).2.2)
  have hreplace : replaceFirst fnWord [] name = name := no_fnWord_replace name hnf
  rw [parseNewMethod]
  simp only [hsp1, hcontains, hsp2, hsp3, if_true, if_neg hlen, List.headI,
    List.get?, parseParamsPath, hreplace, hnt, hout, hosplit,
    filter_map_inputs ts hts]

theorem parse_mkSingleSig (name out : List Char) (ts : List (List Char))
    (hn : ∀ x ∈ name, x ≠ '(' ∧ x ≠ ')')
    (hnf : containsSeq fnWord name = false)
    (hnt : trimSpace name = name)
    (hts : ∀ t ∈ ts, t ≠ [] ∧ ∀ x ∈ t, x ≠ '(' ∧ x ≠ ')' ∧ x ≠ ',')
    (houtne : out ≠ [])
    (hout : ∀ x ∈ out, x ≠ '(' ∧ x ≠ ')') :
    parseNewMethod (mkSingleSig name ts out)
      = some { name := name, inputs := ts.map mkArg, outputs := [mkArg out],
               type := fnWord, stateMutability := viewWord } := by
  have hjts_np : ∀ x ∈ joinComma ts, x ≠ '(' :=
    joinComma_no_char ts '(' (by decide) (fun t ht x hx => ((hts t ht).2 x hx).1)
  have hjts_nrp : ∀ x ∈ joinComma ts, x ≠ ')' :=
    joinComma_no_char ts ')' (by decide) (fun t ht x hx => ((hts t ht).2 x hx).2.1)
  have hname_np : ∀ x ∈ name, x ≠ '(' := fun x hx => (hn x hx).1
  have ha2 : ∀ x ∈ name ++ '(' :: joinComma ts, x ≠ ')' := by
    intro x hx
    rcases List.mem_append.1 hx with h1 | h2
    · exact (hn x h1).2
    · rcases List.mem_cons.1 h2 with h3 | h4
      · subst h3; decide
      · exact hjts_nrp x h4
  have hsig : mkSingleSig name ts out
      = (name ++ '(' :: joinComma ts) ++ ')' :: out := by
    simp [mkSingleSig]
  have hsp1 : splitChar '(' (mkSingleSig name ts out)
      = name :: splitChar '(' (joinComma ts ++ ')' :: out) :=
    splitChar_first '(' (joinComma ts ++ ')' :: out) name hname_np
  have hbody_ne := splitChar_ne_nil '(' (joinComma ts ++ ')' :: out)
  have hlen : ¬((name :: splitChar '(' (joinComma ts ++ ')' :: out)).length ≤ 1) := by
    intro hle
    apply hbody_ne
    cases hxx : splitChar '(' (joinComma ts ++ ')' :: out) with
    | nil => rfl
    | cons a as => rw [hxx] at hle; simp at hle
  have hcontains : containsSeq [')', '('] (mkSingleSig name ts out) = false := by
    rw [containsSeq, hsig]
    rw [breakSeq_pair_none ')' '(' out (fun x hx => (hout x hx).2)
      (by
        intro c t hct hc
        subst hct
        exact (hout c (List.mem_cons_self c t)).1 hc)
      (name ++ '(' :: joinComma ts) ha2]
    rfl
  have hsp2 : splitChar ')' (mkSingleSig name ts out)
      = (name ++ '(' :: joinComma ts) :: [out] := by
    rw [hsig]
    rw [splitChar_first ')' out (name ++ '(' :: joinComma ts) ha2]
    rw [splitChar_no ')' out (fun x hx => (hout x hx).2)]
  have hsp3 : splitChar '(' (name ++ '(' :: joinComma ts)
      = [name, joinComma ts] := by
    rw [splitChar_first '(' (joinComma ts) name hname_np]
    rw [splitChar_no '(' (joinComma ts) hjts_np]
  have hreplace : replaceFirst fnWord [] name = name := no_fnWord_replace name hnf
  rw [parseNewMethod]
  simp only [hsp1, hcontains, hsp2, hsp3, if_neg hlen, List.headI,
    List.get?, parseParamsPath, hreplace, hnt, Bool.false_eq_true, if_false,
    filter_map_inputs ts hts]
  rfl

end ParseLemmas

section Claims

/-- C1: for every well-formed multi-clause signature `name(t1,...)(o1,...)`
and every well-formed single-clause signature `name(t1,...)o`,
`parseNewMethod` returns a `Method` whose `Name` is `name`, whose `Inputs`
are exactly the ordered input type tokens trimmed of whitespace, whose
`Outputs` are exactly the ordered output type tokens trimmed of whitespace,
with `Type` fixed to `"function"` and `StateMutability` fixed to `"view"`. -/
theorem claim1_parse_wellformed (name out : List Char) (ts os : List (List Char))
    (hn : ∀ x ∈ name, x ≠ '(' ∧ x ≠ ')')
    (hnf : containsSeq fnWord name = false)
    (hnt : trimSpace name = name)
    (hts : ∀ t ∈ ts, t ≠ [] ∧ ∀ x ∈ t, x ≠ '(' ∧ x ≠ ')' ∧ x ≠ ',')
    (hosne : os ≠ [])
    (hos : ∀ t ∈ os, ∀ x ∈ t, x ≠ '(' ∧ x ≠ ')' ∧ x ≠ ',')
    (houtne : out ≠ [])
    (hout : ∀ x ∈ out, x ≠ '(' ∧ x ≠ ')') :
    parseNewMethod (mkMultiSig name ts os)
      = some { name := name, inputs := ts.map mkArg, outputs := os.map mkArg,
               type := fnWord, stateMutability := viewWord } ∧
    parseNewMethod (mkSingleSig name ts out)
      = some { name := name, inputs := ts.map mkArg, outputs := [mkArg out],
               type := fnWord, stateMutability := viewWord } :=
  ⟨parse_mkMultiSig name ts os hn hnf hnt hts hosne hos,
   parse_mkSingleSig name out ts hn hnf hnt hts houtne hout⟩

/-- Witness for C1 at `balanceOf(address)(uint256)` and
`balanceOf(address)uint256`. -/
theorem claim1_parse_wellformed_witness :
    (trimSpace (("balanceOf").toList) = ("balanceOf").toList) ∧
    parseNewMethod (mkMultiSig (("balanceOf").toList)
        [("address").toList] [("uint256").toList])
      = some { name := ("balanceOf").toList,
               inputs := [mkArg (("address").toList)],
               outputs := [mkArg (("uint256").toList)],
               type := fnWord, stateMutability := viewWord } ∧
    parseNewMethod (mkSingleSig (("balanceOf").toList)
        [("address").toList] (("uint256").toList))
      = some { name := ("balanceOf").toList,
               inputs := [mkArg (("address").toList)],
               outputs := [mkArg (("uint256").toList)],
               type := fnWord, stateMutability := viewWord } :=
  ⟨by decide,
   (claim1_parse_wellformed (("balanceOf").toList) (("uint256").toList)
      [("address").toList] [("uint256").toList]
      (by decide) (by decide) (by decide) (by decide) (by decide) (by decide)
      (by decide) (by decide)).1,
   (claim1_parse_wellformed (("balanceOf").toList) (("uint256").toList)
      [("address").toList] [("uint256").toList]
      (by decide) (by decide) (by decide) (by decide) (by decide) (by decide)
      (by decide) (by decide)).2⟩

/-- C2: for a pending batch whose labels are distinct and for which every
per-label decode succeeds, `Call` returns a result map whose key set is
exactly the set of submitted labels, each label mapped to the decoded
output values obtained by unpacking the raw return bytes the aggregator
primitive returned for that label. -/
theorem claim2_call_result_map {α β ε : Type}
    (unpack : α → List Char → List Nat → Option (List β))
    (execute : List CallEntry → Option Int →
      Option Int × (List Char → List Nat) × Option ε)
    (st : ContractState α) (bn : Option Int)
    (hnd : (st.calls.map CallEntry.name).Nodup)
    (hdec : ∀ c ∈ st.calls,
      (unpack st.contractAbi c.method
        ((execute st.calls bn).2.1 c.name)).isSome = true) :
    (∀ ℓ : List Char,
      (mapLookup ℓ (contractCall unpack execute st bn).2.1).isSome = true ↔
        ℓ ∈ st.calls.map CallEntry.name) ∧
    (∀ c ∈ st.calls, ∃ vs : List β,
      unpack st.contractAbi c.method ((execute st.calls bn).2.1 c.name)
        = some vs ∧
      mapLookup c.name (contractCall unpack execute st bn).2.1
        = some (some vs)) := by
  constructor
  · intro ℓ
    rw [contractCall]
    rw [lookup_foldl_isSome
      (fun c => unpack st.contractAbi c.method ((execute st.calls bn).2.1 c.name))
      ℓ st.calls []]
    simp [mapLookup]
  · intro c hc
    obtain ⟨vs, hvs⟩ := Option.isSome_iff_exists.1 (hdec c hc)
    refine ⟨vs, hvs, ?_⟩
    rw [contractCall]
    rw [lookup_foldl_nodup
      (fun c => unpack st.contractAbi c.method ((execute st.calls bn).2.1 c.name))
      st.calls [] c hnd hc]
    rw [hvs]

/-- Witness for C2: one call labelled `ts`, echo-style unpack. -/
theorem claim2_call_result_map_witness :
    ((c2state.calls.map CallEntry.name).Nodup) ∧
    ((∀ ℓ : List Char,
      (mapLookup ℓ (contractCall c2unpack c2execute c2state none).2.1).isSome
          = true ↔
        ℓ ∈ c2state.calls.map CallEntry.name) ∧
    (∀ c ∈ c2state.calls, ∃ vs : List Nat,
      c2unpack c2state.contractAbi c.method
          ((c2execute c2state.calls none).2.1 c.name) = some vs ∧
      mapLookup c.name (contractCall c2unpack c2execute c2state none).2.1
        = some (some vs))) :=
  ⟨by decide,
   claim2_call_result_map c2unpack c2execute c2state none
     (by decide) (by decide)⟩

/-- C3: after every `Call`, whatever the aggregator outcome, the pending
batch is empty, and a subsequent `AddCall` followed by `Call` operates on
exactly the newly added entry — never stale entries from a prior cycle. -/
theorem claim3_call_clears_batch {α β ε : Type}
    (unpack : α → List Char → List Nat → Option (List β))
    (execute : List CallEntry → Option Int →
      Option Int × (List Char → List Nat) × Option ε)
    (st : ContractState α) (bn : Option Int) :
    (contractCall unpack execute st bn).2.2.2.calls = [] ∧
    ∀ (hexToAddress : List Char → List Char) (cd : List Nat)
      (callName contractAddress method : List Char),
      ((addCall hexToAddress (some cd) callName contractAddress method
          (contractCall unpack execute st bn).2.2.2).1).calls
        = [{ method := method, target := hexToAddress contractAddress,
             name := callName, callData := cd }] := by
  constructor
  · rw [contractCall]
  · intro hexToAddress cd callName contractAddress method
    simp [contractCall, addCall]

/-- C4: when a signature equal up to ASCII case to an already-registered
one is added, `AddMethod` aborts with the duplicate-method error and
leaves the whole session state — raw-signature set, ordered method list,
and compiled interface description — exactly unchanged. The invariant
hypothesis records how `AddMethod` itself keys the map: each key is the
lowercasing of the stored signature. -/
theorem claim4_addMethod_duplicate {α : Type} (repack : List Method → Option α)
    (st : ContractState α) (signature : List Char)
    (hinv : ∀ p ∈ st.rawMethods, p.1 = toLowerStr p.2)
    (hdup : ∃ p ∈ st.rawMethods, toLowerStr p.2 = toLowerStr signature) :
    addMethod repack st signature = (st, AddOutcome.dupErr) := by
  obtain ⟨p, hp, hpk⟩ := hdup
  have hkey : (mapLookup (toLowerStr signature) st.rawMethods).isSome = true :=
    mapLookup_isSome_of_key _ _ ⟨p, hp, (hinv p hp).trans hpk⟩
  obtain ⟨v, hv⟩ := Option.isSome_iff_exists.1 hkey
  rw [addMethod, hv]

/-- Witness for C4: `FOO()(uint256)` collides case-insensitively with the
registered `Foo()(uint256)` and the state is returned untouched. -/
theorem claim4_addMethod_duplicate_witness :
    (∀ p ∈ dupState.rawMethods, p.1 = toLowerStr p.2) ∧
    addMethod (fun _ => some 1) dupState (("FOO()(uint256)").toList)
      = (dupState, AddOutcome.dupErr) :=
  ⟨by decide,
   claim4_addMethod_duplicate (fun _ => some 1) dupState
     (("FOO()(uint256)").toList) (by decide) (by decide)⟩

/-- C5: the zero-argument signatures `foo()(uint256)` and `foo()uint256`
parse to a `Method` whose input list is empty — not a one-element list
holding an empty-typed `Argument`. -/
theorem claim5_zero_arg_inputs :
    parseNewMethod (("foo()(uint256)").toList)
      = some { name := ("foo").toList, inputs := [],
               outputs := [mkArg (("uint256").toList)],
               type := fnWord, stateMutability := viewWord } ∧
    parseNewMethod (("foo()uint256").toList)
      = some { name := ("foo").toList, inputs := [],
               outputs := [mkArg (("uint256").toList)],
               type := fnWord, stateMutability := viewWord } := by
  decide

/-- C6 counterexample: `foo(` contains a `(` yet the parser still aborts
(the single-clause branch indexes past the end of the `)`-split), refuting
the claim that the parser aborts exactly when no `(` is present. -/
theorem claim6_counterexample :
    '(' ∈ ("foo(").toList ∧ parseNewMethod (("foo(").toList) = none := by
  decide

/-- C6 (amended): `parseNewMethod` aborts whenever the signature contains
no `(` at all; containing a `(` does not guarantee a successful parse. -/
theorem claim6_no_paren_aborts (signature : List Char)
    (h : ∀ x ∈ signature, x ≠ '(') : parseNewMethod signature = none := by
  rw [parseNewMethod]
  rw [splitChar_no '(' signature h]
  simp

/-- Witness for the amended C6 at the signature `foo`. -/
theorem claim6_no_paren_aborts_witness :
    (∀ x ∈ ("foo").toList, x ≠ '(') ∧ parseNewMethod (("foo").toList) = none :=
  ⟨by decide, claim6_no_paren_aborts (("foo").toList) (by decide)⟩

/-- C7: empty-token handling is asymmetric between the two clauses of a
multi-clause signature: `foo(uint256)(uint256,)` keeps the empty output
token (two outputs, the second empty-typed), while `foo(uint256,)(uint256)`
drops the empty input token (one input). -/
theorem claim7_output_empty_tokens_kept :
    parseNewMethod (("foo(uint256)(uint256,)").toList)
      = some { name := ("foo").toList, inputs := [mkArg (("uint256").toList)],
               outputs := [mkArg (("uint256").toList), mkArg []],
               type := fnWord, stateMutability := viewWord } ∧
    parseNewMethod (("foo(uint256,)(uint256)").toList)
      = some { name := ("foo").toList, inputs := [mkArg (("uint256").toList)],
               outputs := [mkArg (("uint256").toList)],
               type := fnWord, stateMutability := viewWord } := by
  decide

/-- C8 counterexample: in `myfunction()(uint256)` the substring `function`
is not a leading keyword, yet the parser removes it and returns the name
`my`, refuting the claim that such substrings are left intact. -/
theorem claim8_counterexample :
    parseNewMethod (("myfunction()(uint256)").toList)
      = some { name := ("my").toList, inputs := [],
               outputs := [mkArg (("uint256").toList)],
               type := fnWord, stateMutability := viewWord } := by
  decide

/-- C8 (amended): whenever the parser returns a `Method`, its name is the
prefix of the signature before the first `(` with the first occurrence of
the substring `function` — leading or not — removed, then
whitespace-trimmed. -/
theorem claim8_name_from_replace (pre rest : List Char) (m : Method)
    (hpre : ∀ x ∈ pre, x ≠ '(')
    (hp : parseNewMethod (pre ++ '(' :: rest) = some m) :
    m.name = trimSpace (replaceFirst fnWord [] pre) := by
  have hsp1 := splitChar_first '(' rest pre hpre
  have hbody_ne := splitChar_ne_nil '(' rest
  have hlen : ¬((pre :: splitChar '(' rest).length ≤ 1) := by
    intro hle
    apply hbody_ne
    cases hxx : splitChar '(' rest with
    | nil => rfl
    | cons a as => rw [hxx] at hle; simp at hle
  rw [parseNewMethod] at hp
  simp only [hsp1, if_neg hlen, List.headI] at hp
  split at hp
  all_goals split at hp
  all_goals first
    | (replace hp := Option.some.inj hp; rw [← hp])
    | simp at hp

/-- Witness for the amended C8 at `myfunction()(uint256)`. -/
theorem claim8_name_from_replace_witness :
    (∀ x ∈ ("myfunction").toList, x ≠ '(') ∧
    (({ name := ("my").toList, inputs := [],
        outputs := [mkArg (("uint256").toList)],
        type := fnWord, stateMutability := viewWord } : Method)).name
      = trimSpace (replaceFirst fnWord [] (("myfunction").toList)) :=
  ⟨by decide,
   claim8_name_from_replace (("myfunction").toList) ((")(uint256)").toList)
     { name := ("my").toList, inputs := [],
       outputs := [mkArg (("uint256").toList)],
       type := fnWord, stateMutability := viewWord }
     (by decide) (by decide)⟩

/-- C9: the input-side empty-token filter compares the raw token before
trimming: `foo( )(uint256)` has a whitespace-only input token, which is
kept (as an empty-typed `Argument`) rather than skipped. -/
theorem claim9_whitespace_token_kept :
    parseNewMethod (("foo( )(uint256)").toList)
      = some { name := ("foo").toList,
               inputs := [{ name := [], type := [], internalType := [] }],
               outputs := [mkArg (("uint256").toList)],
               type := fnWord, stateMutability := viewWord } := by
  decide

/-- C10: `AddMethod` is not atomic with respect to interface-compilation
failure: for a non-duplicate signature, the lowercased signature is added
to the raw-signature map and the parsed method appended to the method
list before recompilation, so when `repack` fails the session aborts with
the registry already extended while the stored interface description
keeps its previous value. -/
theorem claim10_addMethod_nonatomic {α : Type} (repack : List Method → Option α)
    (st : ContractState α) (signature : List Char) (m : Method)
    (hnew : mapLookup (toLowerStr signature) st.rawMethods = none)
    (hparse : parseNewMethod signature = some m)
    (hrepack : repack (st.methods ++ [m]) = none) :
    addMethod repack st signature
      = ({ st with
            rawMethods := mapInsert (toLowerStr signature) signature st.rawMethods,
            methods := st.methods ++ [m] }, AddOutcome.repackErr) := by
  simp [addMethod, hnew, hparse, hrepack]

/-- Witness for C10: an always-failing recompiler on the empty session and
the signature `foo()uint256`. -/
theorem claim10_addMethod_nonatomic_witness :
    (parseNewMethod (("foo()uint256").toList)
      = some { name := ("foo").toList, inputs := [],
               outputs := [mkArg (("uint256").toList)],
               type := fnWord, stateMutability := viewWord }) ∧
    addMethod (fun _ => (none : Option Nat)) emptyState (("foo()uint256").toList)
      = ({ emptyState with
            rawMethods := mapInsert (toLowerStr (("foo()uint256").toList))
              (("foo()uint256").toList) emptyState.rawMethods,
            methods := emptyState.methods ++
              [{ name := ("foo").toList, inputs := [],
                 outputs := [mkArg (("uint256").toList)],
                 type := fnWord, stateMutability := viewWord }] },
         AddOutcome.repackErr) :=
  ⟨by decide,
   claim10_addMethod_nonatomic (fun _ => (none : Option Nat)) emptyState
     (("foo()uint256").toList)
     { name := ("foo").toList, inputs := [],
       outputs := [mkArg (("uint256").toList)],
       type := fnWord, stateMutability := viewWord }
     (by decide) (by decide) (by decide)⟩

end Claims

end Multicall
